import Mathlib

/-!
Shallow embedding of the finllm option-pricing library.

Scalars are taken in an arbitrary linear ordered field `α` (instantiated at
`ℚ` in concrete witnesses).  The transcendental primitives used by the code
(`math.exp`, `math.log`, `math.sqrt`, `scipy.stats.norm.cdf`) are passed in
explicitly as a `Primitives` record, mirroring the spec's statement that the
standard-normal CDF routine and the samplers are provided primitives.
-/

namespace FinLLM

/-- Error kinds raised by the library (assertion failures at construction,
`ValueError`s at pricing time). -/
inductive PriceError where
  | invalidOptionType : PriceError
  | invalidContractParameter : PriceError
  | arbitrageViolation : PriceError
  | invalidSimulationParameters : PriceError
deriving DecidableEq, Repr

/-- The numeric primitives the Python code imports (`math.exp`, `math.log`,
`math.sqrt`, `scipy.stats.norm.cdf`). -/
structure Primitives (α : Type) where
  exp : α → α
  log : α → α
  sqrt : α → α
  cdf : α → α

/-- The option-contract fields stored by `Option.__init__`
(src/outline/finllm/pricing/base.py). -/
structure OptionData (α : Type) where
  expiry : α
  strike : α
  option_type : String
  volatility : α
  rate : α
  dividend_yield : α
deriving DecidableEq, Repr

variable {α : Type} [LinearOrderedField α]

/-- The five field bounds plus the option-type membership validated by the
constructor's asserts. -/
def validOption (o : OptionData α) : Prop :=
  (o.option_type = "call" ∨ o.option_type = "put") ∧
    0 < o.expiry ∧ 0 < o.strike ∧ 0 < o.volatility ∧
    0 ≤ o.rate ∧ 0 ≤ o.dividend_yield

instance (o : OptionData α) : Decidable (validOption o) := by
  unfold validOption; infer_instance

/-- Constructor `Option.__init__` from src/outline/finllm/pricing/base.py: stores the six
fields, then runs the asserts in source order. -/
def mkOption (expiry strike : α) (option_type : String)
    (volatility rate : α) (dividend_yield : α := 0) :
    Except PriceError (OptionData α) :=
  let o : OptionData α :=
    ⟨expiry, strike, option_type, volatility, rate, dividend_yield⟩
  if ¬(o.option_type = "call" ∨ o.option_type = "put") then
    .error .invalidOptionType
  else if ¬(0 < o.expiry) then .error .invalidContractParameter
  else if ¬(0 < o.strike) then .error .invalidContractParameter
  else if ¬(0 < o.volatility) then .error .invalidContractParameter
  else if ¬(0 ≤ o.rate) then .error .invalidContractParameter
  else if ¬(0 ≤ o.dividend_yield) then .error .invalidContractParameter
  else .ok o

/-- Intermediate `d1` of `EuropeanOption.black_scholes` (black_scholes.py
line 15). -/
def bsD1 (P : Primitives α) (o : OptionData α) (spot_price : α) : α :=
  (P.log (spot_price / o.strike) +
      (o.rate - o.dividend_yield + (1 / 2) * o.volatility ^ 2) * o.expiry) /
    (o.volatility * P.sqrt o.expiry)

/-- Intermediate `d2 = d1 − σ·√T` (black_scholes.py line 16). -/
def bsD2 (P : Primitives α) (o : OptionData α) (spot_price : α) : α :=
  bsD1 P o spot_price - o.volatility * P.sqrt o.expiry

/-- Method `EuropeanOption.black_scholes` from src/finllm/pricing/black_scholes.py. -/
def black_scholes (P : Primitives α) (o : OptionData α) (spot_price : α) :
    Except PriceError α :=
  let d1 := bsD1 P o spot_price
  let d2 := bsD2 P o spot_price
  if o.option_type = "call" then
    .ok (spot_price * P.exp (-o.dividend_yield * o.expiry) * P.cdf d1 -
      o.strike * P.exp (-o.rate * o.expiry) * P.cdf d2)
  else if o.option_type = "put" then
    .ok (o.strike * P.exp (-o.rate * o.expiry) * P.cdf (-d2) -
      spot_price * P.exp (-o.dividend_yield * o.expiry) * P.cdf (-d1))
  else
    .error .invalidOptionType

/-- Method `EuropeanOption.price` simply delegates to `black_scholes`. -/
def european_price (P : Primitives α) (o : OptionData α) (spot_price : α) :
    Except PriceError α :=
  black_scholes P o spot_price

/-- Spec-side closed form for the call leg:
`S·e^(−qT)·Φ(d1) − K·e^(−rT)·Φ(d2)` with
`d1 = [ln(S/K) + (r − q + σ²/2)T]/(σ√T)`, `d2 = d1 − σ√T`. -/
def bsmClosedFormCall (P : Primitives α) (S K T r q σ : α) : α :=
  let d1 := (P.log (S / K) + (r - q + σ ^ 2 / 2) * T) / (σ * P.sqrt T)
  let d2 := d1 - σ * P.sqrt T
  S * P.exp (-q * T) * P.cdf d1 - K * P.exp (-r * T) * P.cdf d2

/-- Spec-side closed form for the put leg:
`K·e^(−rT)·Φ(−d2) − S·e^(−qT)·Φ(−d1)`. -/
def bsmClosedFormPut (P : Primitives α) (S K T r q σ : α) : α :=
  let d1 := (P.log (S / K) + (r - q + σ ^ 2 / 2) * T) / (σ * P.sqrt T)
  let d2 := d1 - σ * P.sqrt T
  K * P.exp (-r * T) * P.cdf (-d2) - S * P.exp (-q * T) * P.cdf (-d1)

/-! ### CRR lattice (src/finllm/pricing/bermudan.py, src/finllm/pricing/binomial.py) -/

/-- Python 3 `round` to the nearest integer, ties to even (banker's rounding),
as used in `int(round(t / dt))`. -/
def pyRound [FloorRing α] (x : α) : ℤ :=
  let n := ⌊x⌋
  if x - n < 1 / 2 then n
  else if 1 / 2 < x - n then n + 1
  else if Even n then n else n + 1

/-- The exercise-date mapping loop of `BermudanOption._binomial_tree`
(lines 36–45): each time `t` is snapped to `k = round(t/dt)`; `k = N` sets the
maturity-exercise flag, `1 ≤ k ≤ N−1` records an early-exercise step, and any
other `k` is silently dropped.  Returns (early-exercise steps, maturity flag);
only membership in the first component is ever consulted, matching the
Python `set`. -/
def mapExerciseDates [FloorRing α] (dates : List α) (dt : α) (N : ℕ) :
    List ℕ × Bool :=
  dates.foldl
    (fun acc t =>
      let k := pyRound (t / dt)
      if k = (N : ℤ) then (acc.1, true)
      else if 1 ≤ k ∧ k ≤ (N : ℤ) - 1 then (acc.1 ++ [k.toNat], acc.2)
      else acc)
    ([], false)

/-- The stock-price lattice of `BermudanOption._binomial_tree` (lines 51–56):
`stock[0][0] = spot`, `stock[i][0] = stock[i-1][0]·u`,
`stock[i][j] = stock[i-1][j-1]·d`. -/
def stock (spot u d : α) : ℕ → ℕ → α
  | 0, _ => spot
  | i + 1, 0 => stock spot u d i 0 * u
  | i + 1, j + 1 => stock spot u d i j * d

/-- Terminal value array of `_binomial_tree` (lines 61–69): intrinsic payoff
per node when maturity exercise is allowed, all zeros otherwise. -/
def bermTerminal (N : ℕ) (spot u d K : α) (isCall allowTerminal : Bool) :
    List α :=
  if allowTerminal then
    (List.range (N + 1)).map (fun j =>
      let intr := if isCall then stock spot u d N j - K else K - stock spot u d N j
      if intr > 0 then intr else 0)
  else
    (List.range (N + 1)).map (fun _ => (0 : α))

/-- One backward-induction sweep of `_binomial_tree` (lines 72–81) at step `i`.
The Python loop overwrites `values[j]` in place for increasing `j`; since
entry `j` is written only after entries `j` and `j+1` are read, the sweep is
the pointwise map below. -/
def bermBackStep (spot u d disc p K : α) (isCall : Bool) (exSteps : List ℕ)
    (i : ℕ) (vals : List α) : List α :=
  (List.range (i + 1)).map (fun j =>
    let continuation := disc * (p * vals.getD j 0 + (1 - p) * vals.getD (j + 1) 0)
    if i ∈ exSteps then
      let intr0 := if isCall then stock spot u d i j - K else K - stock spot u d i j
      let intr := if intr0 < 0 then 0 else intr0
      max continuation intr
    else continuation)

/-- Runs `k` backward sweeps of `_binomial_tree` starting from the terminal layer;
after `k` sweeps the array holds the values of lattice step `N − k`. -/
def bermLoop (N : ℕ) (spot u d disc p K : α) (isCall : Bool) (exSteps : List ℕ)
    (allowTerminal : Bool) : ℕ → List α
  | 0 => bermTerminal N spot u d K isCall allowTerminal
  | k + 1 => bermBackStep spot u d disc p K isCall exSteps (N - (k + 1))
      (bermLoop N spot u d disc p K isCall exSteps allowTerminal k)

/-- The lattice part of `_binomial_tree`: run all `N` sweeps and return
`values[0]`. -/
def bermCore (N : ℕ) (spot u d disc p K : α) (isCall : Bool) (exSteps : List ℕ)
    (allowTerminal : Bool) : α :=
  (bermLoop N spot u d disc p K isCall exSteps allowTerminal N).getD 0 0

/-- CRR up factor `u = exp(σ·√(T/N))` (bermudan.py line 25, binomial.py line 19). -/
def crrU (P : Primitives α) (o : OptionData α) (N : ℕ) : α :=
  P.exp (o.volatility * P.sqrt (o.expiry / (N : α)))

/-- CRR down factor `d = 1/u` (bermudan.py line 26, binomial.py line 20). -/
def crrD (P : Primitives α) (o : OptionData α) (N : ℕ) : α :=
  1 / crrU P o N

/-- Per-step discount `disc = exp(−r·Δt)` (bermudan.py line 27, binomial.py line 21). -/
def crrDisc (P : Primitives α) (o : OptionData α) (N : ℕ) : α :=
  P.exp (-o.rate * (o.expiry / (N : α)))

/-- Risk-neutral probability `p = (exp((r−q)·Δt) − d)/(u − d)` (bermudan.py line 28, binomial.py
line 22). -/
def crrP (P : Primitives α) (o : OptionData α) (N : ℕ) : α :=
  (P.exp ((o.rate - o.dividend_yield) * (o.expiry / (N : α))) - crrD P o N) /
    (crrU P o N - crrD P o N)

/-- Method `BermudanOption._binomial_tree` (src/finllm/pricing/bermudan.py): CRR
parameters, the `p ∈ [0,1]` hard stop, the exercise-date mapping, and the
lattice evaluation.  `BermudanOption.price` delegates here; a `BermudanOption`
built with `exercise_dates=None` uses `[expiry]`. -/
def bermudan_price [FloorRing α] (P : Primitives α) (o : OptionData α)
    (steps : ℕ) (exercise_dates : List α) (spot_price : α) :
    Except PriceError α :=
  let N := steps
  let dt := o.expiry / (N : α)
  let u := crrU P o N
  let d := crrD P o N
  let disc := crrDisc P o N
  let p := crrP P o N
  if ¬(0 ≤ p ∧ p ≤ 1) then .error .arbitrageViolation
  else
    let es := mapExerciseDates exercise_dates dt N
    .ok (bermCore N spot_price u d disc p o.strike (o.option_type = "call")
      es.1 es.2)

/-- Terminal payoffs of `AmericanOption.binomial_tree` (binomial.py
lines 24–30), node `i` carrying `i` down-moves. -/
def amerTerminal (steps : ℕ) (spot u d K : α) (isCall : Bool) : List α :=
  (List.range (steps + 1)).map (fun i =>
    let ST := spot * u ^ (steps - i) * d ^ i
    if isCall then max 0 (ST - K) else max 0 (K - ST))

/-- One backward sweep of `AmericanOption.binomial_tree` (lines 32–42); the
in-place update is a pointwise map for the same reason as `bermBackStep`. -/
def amerBackStep (spot u d disc p K : α) (isCall : Bool) (step : ℕ)
    (vals : List α) : List α :=
  (List.range (step + 1)).map (fun i =>
    let ST := spot * u ^ (step - i) * d ^ i
    let continuation := disc * (p * vals.getD i 0 + (1 - p) * vals.getD (i + 1) 0)
    let exercise := if isCall then max 0 (ST - K) else max 0 (K - ST)
    max continuation exercise)

/-- Runs `k` backward sweeps of `AmericanOption.binomial_tree`. -/
def amerLoop (steps : ℕ) (spot u d disc p K : α) (isCall : Bool) : ℕ → List α
  | 0 => amerTerminal steps spot u d K isCall
  | k + 1 => amerBackStep spot u d disc p K isCall (steps - (k + 1))
      (amerLoop steps spot u d disc p K isCall k)

/-- Method `AmericanOption.binomial_tree` (src/finllm/pricing/binomial.py): computes
the CRR parameters — with no check on `p` — and returns `option_values[0]`.
`AmericanOption.price` delegates here. -/
def binomial_tree (P : Primitives α) (o : OptionData α) (steps : ℕ)
    (spot_price : α) : α :=
  (amerLoop steps spot_price (crrU P o steps) (crrD P o steps)
    (crrDisc P o steps) (crrP P o steps) o.strike (o.option_type = "call")
    steps).getD 0 0

/-- Spec-side intrinsic value: `max(S−K, 0)` for calls, `max(K−S, 0)` for
puts. -/
def intrinsicSpec (K S : α) (isCall : Bool) : α :=
  if isCall then max (S - K) 0 else max (K - S) 0

/-- Spec-side lattice value recursion (spec §4.2, steps 4–5), written with
`k` = number of steps remaining counted from maturity, so that `latticeV … k j`
is the value at lattice step `i = N − k`, node `j`.  The exercise policy is an
arbitrary predicate `E` on step indices; the terminal layer is the intrinsic
payoff when maturity exercise is permitted and zero otherwise. -/
def latticeV (N : ℕ) (spot u d disc p K : α) (isCall : Bool) (E : ℕ → Bool)
    (allowTerminal : Bool) : ℕ → ℕ → α
  | 0, j =>
    if allowTerminal then intrinsicSpec K (spot * u ^ (N - j) * d ^ j) isCall
    else 0
  | k + 1, j =>
    let i := N - (k + 1)
    let continuation := disc *
      (p * latticeV N spot u d disc p K isCall E allowTerminal k j +
       (1 - p) * latticeV N spot u d disc p K isCall E allowTerminal k (j + 1))
    if E i then
      max continuation (intrinsicSpec K (spot * u ^ (i - j) * d ^ j) isCall)
    else continuation

/-! ### Monte Carlo Asian pricer (src/finllm/pricing/asian.py) -/

/-- Python `str.lower`: lower-cases each character. -/
def pyLower (s : String) : String := ⟨s.data.map Char.toLower⟩

/-- Row-wise prefix sums, i.e. `np.cumsum(·, axis=1)` applied to one row. -/
def cumsumFrom (acc : α) : List α → List α
  | [] => []
  | x :: xs => (acc + x) :: cumsumFrom (acc + x) xs

/-- Prefix sums of a list. -/
def cumsum (xs : List α) : List α := cumsumFrom 0 xs

/-- Arithmetic mean of a list, `sum / length` (`np.mean`). -/
def listMean (xs : List α) : α := xs.sum / (xs.length : α)

/-- Sample standard deviation `np.std(xs, ddof=1)`: Bessel-corrected sample standard deviation,
`√(Σ(x−mean)² / (len−1))`, with the square root taken by the provided
primitive. -/
def sampleStd (P : Primitives α) (xs : List α) : α :=
  P.sqrt ((xs.map (fun x => (x - listMean xs) ^ 2)).sum / ((xs.length : α) - 1))

/-- The antithetic assembly `np.vstack([Z, -Z])[:m]` (asian.py lines 44–47),
applied to the `⌈m/2⌉` independently drawn rows. -/
def antitheticZ (m : ℕ) (zs : List (List α)) : List (List α) :=
  (zs ++ zs.map (fun row => row.map (fun z => -z))).take m

/-- Monte Carlo configuration of `AsianOption.__init__` (the seed is handled
separately). -/
structure AsianConfig where
  num_simulations : ℕ
  num_steps : ℕ
  antithetic : Bool
  include_s0 : Bool
deriving DecidableEq, Repr

/-- The simulated prices of one path (asian.py lines 52–53): exponentials of
`log S0 + cumsum(drift + diffusion·z)`. -/
def asianPathPrices (P : Primitives α) (S0 drift diffusion : α)
    (row : List α) : List α :=
  (cumsum (row.map (fun z => drift + diffusion * z))).map
    (fun c => P.exp (P.log S0 + c))

/-- Per-path average of `AsianOption.price` (lines 55–58): mean over the
monitored prices, or `(sum + S0)/(n+1)` when the spot is included. -/
def asianAvg (P : Primitives α) (S0 drift diffusion : α) (n : ℕ)
    (include_s0 : Bool) (row : List α) : α :=
  let Srow := asianPathPrices P S0 drift diffusion row
  if include_s0 then (Srow.sum + S0) / ((n : α) + 1) else listMean Srow

/-- Method `AsianOption.price` (asian.py lines 22–71) given the draw matrix `Z`
(one list per simulated path): parameter validation, per-path averages,
payoffs, and the discounted `(mean, standard error)` pair. -/
def asian_price_with (P : Primitives α) (o : OptionData α) (cfg : AsianConfig)
    (Z : List (List α)) (spot_price : α) : Except PriceError (α × α) :=
  let S0 := spot_price
  let K := o.strike
  let T := o.expiry
  let r := o.rate
  let q := o.dividend_yield
  let vol := o.volatility
  let n := cfg.num_steps
  let m := cfg.num_simulations
  if T ≤ 0 ∨ vol < 0 ∨ n ≤ 0 ∨ m ≤ 0 then .error .invalidSimulationParameters
  else
    let dt := T / (n : α)
    let drift := (r - q - (1 / 2) * vol * vol) * dt
    let diffusion := vol * P.sqrt dt
    let A := Z.map (asianAvg P S0 drift diffusion n cfg.include_s0)
    let opt_type := pyLower o.option_type
    let disc := P.exp (-r * T)
    if opt_type = "call" then
      let payoffs := A.map (fun a => max (a - K) 0)
      .ok (disc * listMean payoffs,
        disc * sampleStd P payoffs / P.sqrt (m : α))
    else if opt_type = "put" then
      let payoffs := A.map (fun a => max (K - a) 0)
      .ok (disc * listMean payoffs,
        disc * sampleStd P payoffs / P.sqrt (m : α))
    else .error .invalidOptionType

/-- Model of the global NumPy random state: `seedReset` is the deterministic
state set by `np.random.seed(k)`, `fresh` models `np.random.seed(None)`
(reseeding from OS entropy, i.e. an arbitrary state transformation), and
`randn st a b` draws an `a×b` matrix and advances the state. -/
structure RngModel (σ α : Type) where
  seedReset : ℕ → σ
  fresh : σ → σ
  randn : σ → ℕ → ℕ → List (List α) × σ

/-- Reseeding step `np.random.seed(self.seed)`. -/
def npSeed (R : RngModel σ α) (seed : Option ℕ) (st : σ) : σ :=
  match seed with
  | some k => R.seedReset k
  | none => R.fresh st

/-- Method `AsianOption.price` with the global RNG state made explicit: validate,
reseed the global state, draw (`⌈m/2⌉` rows plus negations if antithetic,
`m` rows otherwise), then price.  Returns the result together with the RNG
state left behind. -/
def asian_price_stateful {σ : Type} (R : RngModel σ α) (P : Primitives α)
    (o : OptionData α) (cfg : AsianConfig) (seed : Option ℕ) (spot_price : α)
    (st : σ) : Except PriceError (α × α) × σ :=
  let T := o.expiry
  let vol := o.volatility
  let n := cfg.num_steps
  let m := cfg.num_simulations
  if T ≤ 0 ∨ vol < 0 ∨ n ≤ 0 ∨ m ≤ 0 then
    (.error .invalidSimulationParameters, st)
  else
    let st1 := npSeed R seed st
    let Zst :=
      if cfg.antithetic then
        let Zh := R.randn st1 ((m + 1) / 2) n
        (antitheticZ m Zh.1, Zh.2)
      else R.randn st1 m n
    (asian_price_with P o cfg Zst.1 spot_price, Zst.2)

/-! ### Spec-side Monte Carlo formulas (spec §4.3) -/

/-- Spec-side monitored prices of one path: `S·exp(c)` with `c` the cumulative
sum of `(r−q−σ²/2)Δt + σ√Δt·z` along the path. -/
def asianSpecPrices (P : Primitives α) (S0 drift diffusion : α)
    (row : List α) : List α :=
  (cumsum (row.map (fun z => drift + diffusion * z))).map (fun c => S0 * P.exp c)

/-- Spec-side per-path average: arithmetic mean of the `n` monitored prices,
or the mean of (sum of monitored prices + spot) over `n+1` points when the
spot is a monitoring point. -/
def asianSpecAvg (P : Primitives α) (S0 drift diffusion : α) (n : ℕ)
    (include_s0 : Bool) (row : List α) : α :=
  let Srow := asianSpecPrices P S0 drift diffusion row
  if include_s0 then (Srow.sum + S0) / ((n : α) + 1) else Srow.sum / (n : α)

/-- Spec-side payoff of one path: `max(A−K, 0)` for calls, `max(K−A, 0)` for
puts. -/
def asianSpecPayoff (K A : α) (isCall : Bool) : α :=
  if isCall then max (A - K) 0 else max (K - A) 0

/-- Spec-side result pair of the Monte Carlo pricer:
`(e^(−rT)·mean(payoffs), e^(−rT)·sample_std(payoffs)/√m)` with the payoffs
built from `asianSpecAvg` over the draw matrix `Z`. -/
def asianSpecPair (P : Primitives α) (o : OptionData α) (cfg : AsianConfig)
    (Z : List (List α)) (spot_price : α) : α × α :=
  let n := cfg.num_steps
  let m := cfg.num_simulations
  let dt := o.expiry / (n : α)
  let drift := (o.rate - o.dividend_yield - o.volatility ^ 2 / 2) * dt
  let diffusion := o.volatility * P.sqrt dt
  let payoffs := Z.map (fun row =>
    asianSpecPayoff o.strike
      (asianSpecAvg P spot_price drift diffusion n cfg.include_s0 row)
      (o.option_type = "call"))
  let disc := P.exp (-o.rate * o.expiry)
  (disc * (payoffs.sum / (m : α)),
    disc * P.sqrt ((payoffs.map (fun x => (x - payoffs.sum / (m : α)) ^ 2)).sum /
      ((m : α) - 1)) / P.sqrt (m : α))

/-- Contract with the given numeric fields and call exercise kind. -/
def callContract (T K σ r q : α) : OptionData α where
  expiry := T
  strike := K
  option_type := "call"
  volatility := σ
  rate := r
  dividend_yield := q

/-- Contract with the given numeric fields and put exercise kind. -/
def putContract (T K σ r q : α) : OptionData α where
  expiry := T
  strike := K
  option_type := "put"
  volatility := σ
  rate := r
  dividend_yield := q

/-! ### Concrete data for witnesses and counterexamples (over `ℚ`) -/

/-- Concrete rational stand-ins for the provided numeric primitives:
`exp x = 1 + x`, `log x = 0`, `sqrt x = x`, `Φ x = (1+x)/2` (which satisfies
`Φ x + Φ (−x) = 1`). -/
def ratPrims : Primitives ℚ where
  exp := fun x => 1 + x
  log := fun _ => 0
  sqrt := fun x => x
  cdf := fun x => (1 + x) / 2

/-- Concrete rational primitives whose `exp` is multiplicative on sums
(`exp = 1` constantly), used where the exponential homomorphism law is
needed. -/
def homPrims : Primitives ℚ where
  exp := fun _ => 1
  log := fun _ => 0
  sqrt := fun x => x
  cdf := fun x => (1 + x) / 2

/-- Concrete valid put contract for which, under `ratPrims`, the 1-step CRR
probability is `p = −1/3 ∉ [0,1]` (T=1, K=1, σ=1, r=0, q=1). -/
def optBadP : OptionData ℚ where
  expiry := 1
  strike := 1
  option_type := "put"
  volatility := 1
  rate := 0
  dividend_yield := 1

/-- Concrete valid put contract for which, under `ratPrims`, the CRR
probability is `p = 1 ∈ [0,1]` at any step count (T=1, K=1, σ=1, r=1, q=0). -/
def optGoodP : OptionData ℚ where
  expiry := 1
  strike := 1
  option_type := "put"
  volatility := 1
  rate := 1
  dividend_yield := 0

/-- Concrete valid put contract with interior CRR probability under
`ratPrims`: at `steps = 2`, `p = 3/5` and `disc = 5/6`; at `steps = 1`,
`p = 5/9` (T=1, K=1, σ=1, r=1/3, q=0). -/
def optMidP : OptionData ℚ where
  expiry := 1
  strike := 1
  option_type := "put"
  volatility := 1
  rate := 1 / 3
  dividend_yield := 0

/-- Concrete valid call contract (T=1, K=1, σ=1, r=1, q=0). -/
def optGoodC : OptionData ℚ where
  expiry := 1
  strike := 1
  option_type := "call"
  volatility := 1
  rate := 1
  dividend_yield := 0

/-- A trivial RNG-state model over `ℕ` states used in witnesses: seeding with
`k` lands in state `k`, and `randn st a b` returns the all-`st` matrix. -/
def natRng : RngModel ℕ ℚ where
  seedReset := fun k => k
  fresh := fun st => st + 1
  randn := fun st a b => ((List.range a).map (fun _ => (List.range b).map (fun _ => (st : ℚ))), st + a * b)

/-! ## Helper lemmas -/

/-- Entry `j` of mapping a function over `List.range n`. -/
theorem getD_map_range {β : Type} (f : ℕ → β) {n j : ℕ} (h : j < n) (dflt : β) :
    ((List.range n).map f).getD j dflt = f j := by
  simp [List.getD_eq_getElem?_getD, List.getElem?_map, List.getElem?_range h]

/-- Clamping by an `if` against `> 0` is `max · 0`. -/
theorem if_gt_eq_max (x : α) : (if x > 0 then x else 0) = max x 0 := by
  rcases le_or_lt x 0 with h | h
  · rw [if_neg (not_lt.mpr h), max_eq_right h]
  · rw [if_pos h, max_eq_left h.le]

/-- Clamping by an `if` against `< 0` is `max · 0`. -/
theorem if_lt_eq_max (x : α) : (if x < 0 then 0 else x) = max x 0 := by
  rcases le_or_lt x 0 with h | h
  · rcases lt_or_eq_of_le h with h' | h'
    · rw [if_pos h', max_eq_right h]
    · simp [h']
  · rw [if_neg (not_lt.mpr h.le), max_eq_left h.le]

/-- Unfolding the call branch of `black_scholes`. -/
theorem black_scholes_call (P : Primitives α) (o : OptionData α) (S : α)
    (h : o.option_type = "call") :
    black_scholes P o S =
      .ok (S * P.exp (-o.dividend_yield * o.expiry) * P.cdf (bsD1 P o S) -
        o.strike * P.exp (-o.rate * o.expiry) * P.cdf (bsD2 P o S)) := by
  simp [black_scholes, h]

/-- Unfolding the put branch of `black_scholes`. -/
theorem black_scholes_put (P : Primitives α) (o : OptionData α) (S : α)
    (h : o.option_type = "put") :
    black_scholes P o S =
      .ok (o.strike * P.exp (-o.rate * o.expiry) * P.cdf (-bsD2 P o S) -
        S * P.exp (-o.dividend_yield * o.expiry) * P.cdf (-bsD1 P o S)) := by
  simp [black_scholes, h]

/-- The code's `d1` (with `0.5·σ²`) equals the spec's (with `σ²/2`). -/
theorem bsD1_eq_spec (P : Primitives α) (o : OptionData α) (S : α) :
    bsD1 P o S = (P.log (S / o.strike) +
      (o.rate - o.dividend_yield + o.volatility ^ 2 / 2) * o.expiry) /
      (o.volatility * P.sqrt o.expiry) := by
  unfold bsD1; ring_nf

/-- The spec-side call formula written through `bsD1`/`bsD2`. -/
theorem bsmCall_eq (P : Primitives α) (o : OptionData α) (S : α) :
    bsmClosedFormCall P S o.strike o.expiry o.rate o.dividend_yield o.volatility =
      S * P.exp (-o.dividend_yield * o.expiry) * P.cdf (bsD1 P o S) -
        o.strike * P.exp (-o.rate * o.expiry) * P.cdf (bsD2 P o S) := by
  simp only [bsmClosedFormCall, bsD2, bsD1_eq_spec]

/-- The spec-side put formula written through `bsD1`/`bsD2`. -/
theorem bsmPut_eq (P : Primitives α) (o : OptionData α) (S : α) :
    bsmClosedFormPut P S o.strike o.expiry o.rate o.dividend_yield o.volatility =
      o.strike * P.exp (-o.rate * o.expiry) * P.cdf (-bsD2 P o S) -
        S * P.exp (-o.dividend_yield * o.expiry) * P.cdf (-bsD1 P o S) := by
  simp only [bsmClosedFormPut, bsD2, bsD1_eq_spec]

/-- Algebraic core of put-call parity, for any CDF primitive with
`Φ x + Φ (−x) = 1`. -/
theorem parity_core (P : Primitives α) (hΦ : ∀ x, P.cdf x + P.cdf (-x) = 1)
    (E1 E2 d1 d2 S K : α) :
    S * E1 * P.cdf d1 - K * E2 * P.cdf d2 -
      (K * E2 * P.cdf (-d2) - S * E1 * P.cdf (-d1)) = S * E1 - K * E2 := by
  linear_combination S * E1 * hΦ d1 - K * E2 * hΦ d2

/-! ## Claim theorems -/

/-- **C1.** For every validly constructed contract whose exercise kind is call
or put and every spot `S > 0`, the analytic pricer returns exactly the
Black-Scholes-Merton closed form (call leg for calls, put leg for puts), as a
pure function of the inputs. -/
theorem C1_analytic_closed_form (P : Primitives α) (o : OptionData α) (S : α)
    (hv : validOption o) (hS : 0 < S) :
    european_price P o S =
      .ok (if o.option_type = "call" then
        bsmClosedFormCall P S o.strike o.expiry o.rate o.dividend_yield o.volatility
      else
        bsmClosedFormPut P S o.strike o.expiry o.rate o.dividend_yield o.volatility) := by
  rcases hv.1 with h | h
  · rw [european_price, black_scholes_call P o S h, if_pos h, bsmCall_eq]
  · rw [european_price, black_scholes_put P o S h, if_neg (by rw [h]; decide),
      bsmPut_eq]

/-- Witness for C1 at a concrete contract and spot. -/
theorem C1_witness :
    european_price ratPrims optGoodC 1 =
      .ok (if optGoodC.option_type = "call" then
        bsmClosedFormCall ratPrims 1 optGoodC.strike optGoodC.expiry
          optGoodC.rate optGoodC.dividend_yield optGoodC.volatility
      else
        bsmClosedFormPut ratPrims 1 optGoodC.strike optGoodC.expiry
          optGoodC.rate optGoodC.dividend_yield optGoodC.volatility) :=
  C1_analytic_closed_form ratPrims optGoodC 1
    (by norm_num [validOption, optGoodC]) (by norm_num)

/-- **C2.** Put-call parity: for valid contract parameters and any spot, the
analytic call price minus the analytic put price with identical
`(S,K,T,r,q,σ)` equals `S·e^(−qT) − K·e^(−rT)` exactly, provided the CDF
primitive satisfies `Φ(d) + Φ(−d) = 1`. -/
theorem C2_put_call_parity (P : Primitives α)
    (hΦ : ∀ x, P.cdf x + P.cdf (-x) = 1)
    (K T σ r q S : α) (hK : 0 < K) (hT : 0 < T) (hσ : 0 < σ)
    (hr : 0 ≤ r) (hq : 0 ≤ q) (hS : 0 < S) (c p : α)
    (hc : black_scholes P (callContract T K σ r q) S = .ok c)
    (hp : black_scholes P (putContract T K σ r q) S = .ok p) :
    c - p = S * P.exp (-q * T) - K * P.exp (-r * T) := by
  rw [black_scholes_call P _ S rfl, Except.ok.injEq] at hc
  rw [black_scholes_put P _ S rfl, Except.ok.injEq] at hp
  have hd1 : bsD1 P (putContract T K σ r q) S = bsD1 P (callContract T K σ r q) S := rfl
  have hd2 : bsD2 P (putContract T K σ r q) S = bsD2 P (callContract T K σ r q) S := rfl
  rw [hd1, hd2] at hp
  simp only [callContract, putContract] at hc hp
  rw [← hc, ← hp]
  exact parity_core P hΦ _ _ _ _ S K

/-- Witness for C2 at `T = K = σ = 1`, `r = 1`, `q = 0`, `S = 1` under
`ratPrims`: the call leg prices to `5/4`, the put leg to `1/4`, and the parity
right-hand side to `1`. -/
theorem C2_witness :
    (5 / 4 : ℚ) - 1 / 4 =
      1 * ratPrims.exp (-0 * 1) - 1 * ratPrims.exp (-1 * 1) :=
  C2_put_call_parity ratPrims (by intro x; simp [ratPrims]; ring)
    1 1 1 1 0 1 (by norm_num) (by norm_num) (by norm_num) (by norm_num)
    (by norm_num) (by norm_num) (5 / 4) (1 / 4)
    (by rw [black_scholes_call _ _ _ rfl]
        norm_num [bsD1, bsD2, callContract, ratPrims])
    (by rw [black_scholes_put _ _ _ rfl]
        norm_num [bsD1, bsD2, putContract, ratPrims])

/-- Lower-casing fixes the literal string of the call kind. -/
theorem pyLower_call : pyLower "call" = "call" := by decide

/-- Lower-casing fixes the literal string of the put kind. -/
theorem pyLower_put : pyLower "put" = "put" := by decide

/-- Outcome of the constructor: either every assert passes and the stored
record is returned, or some assert fires and construction fails. -/
theorem mkOption_cases (expiry strike : α) (ty : String) (vol rate divy : α) :
    (mkOption expiry strike ty vol rate divy =
        .ok ⟨expiry, strike, ty, vol, rate, divy⟩ ∧
      validOption (OptionData.mk expiry strike ty vol rate divy)) ∨
    ((∃ e, mkOption expiry strike ty vol rate divy = .error e) ∧
      ¬ validOption (OptionData.mk expiry strike ty vol rate divy)) := by
  dsimp only [mkOption, validOption]
  split_ifs with h1 h2 h3 h4 h5 h6
  · exact Or.inl ⟨rfl, h1, h2, h3, h4, h5, h6⟩
  · exact Or.inr ⟨⟨_, rfl⟩, fun hv => h6 hv.2.2.2.2.2⟩
  · exact Or.inr ⟨⟨_, rfl⟩, fun hv => h5 hv.2.2.2.2.1⟩
  · exact Or.inr ⟨⟨_, rfl⟩, fun hv => h4 hv.2.2.2.1⟩
  · exact Or.inr ⟨⟨_, rfl⟩, fun hv => h3 hv.2.2.1⟩
  · exact Or.inr ⟨⟨_, rfl⟩, fun hv => h2 hv.2.1⟩
  · exact Or.inr ⟨⟨_, rfl⟩, fun hv => h1 hv.1⟩

/-- For a valid contract, the Monte Carlo pricer's own validation and payoff
branches never fail given at least one step and one simulation. -/
theorem asian_price_with_ok (P : Primitives α) (o : OptionData α)
    (cfg : AsianConfig) (Z : List (List α)) (spot : α) (hv : validOption o)
    (hn : 1 ≤ cfg.num_steps) (hm : 1 ≤ cfg.num_simulations) :
    ∃ pr, asian_price_with P o cfg Z spot = .ok pr := by
  obtain ⟨hty, hT, hK, hvol, hr, hq⟩ := hv
  unfold asian_price_with
  rw [if_neg (by
    push_neg
    exact ⟨hT, hvol.le, by omega, by omega⟩)]
  rcases hty with h | h
  · rw [h]
    simp [pyLower_call]
  · rw [h]
    simp [pyLower_put]

/-- **C3 counterexample.** At the valid contract `T=1, K=1, put, σ=1, r=0,
q=1` with one lattice step, spot `1`, and the concrete primitives `ratPrims`,
the CRR probability is `p = −1/3 ∉ [0,1]`, yet the American lattice evaluator
raises no error and returns the numeric value `2/3`. -/
theorem C3_counterexample :
    validOption optBadP ∧ crrP ratPrims optBadP 1 < 0 ∧
      binomial_tree ratPrims optBadP 1 1 = 2 / 3 := by
  refine ⟨by norm_num [validOption, optBadP], ?_, ?_⟩
  · norm_num [crrP, crrU, crrD, ratPrims, optBadP]
  · simp [binomial_tree, amerLoop, amerBackStep, amerTerminal,
      crrP, crrU, crrD, crrDisc, ratPrims, optBadP, List.range_succ]
    norm_num [max_def]

/-- **C3 amended.** The Bermudan lattice evaluator (which implements the
European, Bermudan and all-steps policies of `BermudanOption`) fails, and
fails with `ArbitrageViolation`, exactly when the CRR risk-neutral probability
lies outside `[0,1]`; the American evaluator `binomial_tree` performs no such
check and always returns a numeric value. -/
theorem C3_arbitrage_check [FloorRing α] (P : Primitives α) (o : OptionData α)
    (steps : ℕ) (dates : List α) (spot : α) :
    ((∃ e, bermudan_price P o steps dates spot = .error e) ↔
      ¬(0 ≤ crrP P o steps ∧ crrP P o steps ≤ 1)) ∧
    (∀ e, bermudan_price P o steps dates spot = .error e →
      e = .arbitrageViolation) := by
  unfold bermudan_price
  by_cases h : 0 ≤ crrP P o steps ∧ crrP P o steps ≤ 1
  · rw [if_neg (not_not.mpr h)]
    constructor
    · constructor
      · rintro ⟨e, he⟩
        exact absurd he (by simp)
      · intro hc
        exact absurd h hc
    · intro e he
      exact absurd he (by simp)
  · rw [if_pos h]
    constructor
    · exact ⟨fun _ => h, fun _ => ⟨_, rfl⟩⟩
    · intro e he
      exact (Except.error.injEq _ _ ▸ he).symm

/-- **C9.** Construction fails exactly when some bound is violated; a
successful construction stores the given fields, which then satisfy every
bound; and for a validly constructed contract no bound violation on those
fields is detected at price time (the analytic pricer's option-type branch
and the Monte Carlo pricer's parameter validation both pass). -/
theorem C9_construction_validation (expiry strike : α) (ty : String)
    (vol rate divy : α) :
    ((∃ e, mkOption expiry strike ty vol rate divy = .error e) ↔
      ¬ validOption (OptionData.mk expiry strike ty vol rate divy)) ∧
    (∀ o', mkOption expiry strike ty vol rate divy = .ok o' →
      o' = OptionData.mk expiry strike ty vol rate divy ∧ validOption o') ∧
    (validOption (OptionData.mk expiry strike ty vol rate divy) →
      ∀ P : Primitives α, ∀ S : α,
        ∃ c, black_scholes P (OptionData.mk expiry strike ty vol rate divy) S =
          .ok c) ∧
    (validOption (OptionData.mk expiry strike ty vol rate divy) →
      ∀ P : Primitives α, ∀ cfg : AsianConfig, ∀ Z : List (List α), ∀ S : α,
        1 ≤ cfg.num_steps → 1 ≤ cfg.num_simulations →
        ∃ pr, asian_price_with P
          (OptionData.mk expiry strike ty vol rate divy) cfg Z S = .ok pr) := by
  rcases mkOption_cases expiry strike ty vol rate divy with ⟨hok, hv⟩ | ⟨⟨e, he⟩, hv⟩
  · refine ⟨⟨fun ⟨e, he⟩ => absurd he (by rw [hok]; simp), fun h => absurd hv h⟩,
      fun o' h => ?_, fun _ P S => ?_, fun _ P cfg Z S hn hm => ?_⟩
    · rw [hok, Except.ok.injEq] at h
      exact ⟨h.symm, h ▸ hv⟩
    · rcases hv.1 with h | h
      · exact ⟨_, black_scholes_call P _ S h⟩
      · exact ⟨_, black_scholes_put P _ S h⟩
    · exact asian_price_with_ok P _ cfg Z S hv hn hm
  · refine ⟨⟨fun _ => hv, fun _ => ⟨e, he⟩⟩, fun o' h => absurd h (by rw [he]; simp),
      fun h => absurd h hv, fun h => absurd h hv⟩

/-- Witness for C9: at concrete inputs, a valid construction succeeds and its
contract prices without error, while an invalid construction (negative rate)
fails. -/
theorem C9_witness :
    ((∃ e, mkOption (1 : ℚ) 1 "put" 1 0 (-1) = .error e) ∧
      (∃ c, black_scholes ratPrims (OptionData.mk (1 : ℚ) 1 "put" 1 0 0) 1 = .ok c)) := by
  constructor
  · exact (C9_construction_validation (1 : ℚ) 1 "put" 1 0 (-1)).1.mpr
      (by norm_num [validOption])
  · exact (C9_construction_validation (1 : ℚ) 1 "put" 1 0 0).2.2.1
      (by norm_num [validOption]) ratPrims 1

/-- Closed form of the multiplicatively built stock lattice:
`stock[i][j] = spot·u^(i−j)·d^j` for `j ≤ i`. -/
theorem stock_closed (spot u d : α) :
    ∀ i j, j ≤ i → stock spot u d i j = spot * u ^ (i - j) * d ^ j := by
  intro i
  induction i with
  | zero =>
    intro j hj
    interval_cases j
    simp [stock]
  | succ i ih =>
    intro j hj
    cases j with
    | zero =>
      simp only [stock]
      rw [ih 0 (Nat.zero_le i)]
      simp only [Nat.sub_zero, pow_zero, mul_one]
      rw [pow_succ]
      ring
    | succ j =>
      simp only [stock]
      rw [ih j (Nat.succ_le_succ_iff.mp hj), Nat.succ_sub_succ, pow_succ]
      ring

/-- Pointwise correspondence between the Bermudan backward-induction arrays
and the spec-side lattice recursion `latticeV`. -/
theorem bermLoop_getD (N : ℕ) (spot u d disc p K : α) (isCall : Bool)
    (exS : List ℕ) (allowT : Bool) :
    ∀ k, k ≤ N → ∀ j, j ≤ N - k →
      (bermLoop N spot u d disc p K isCall exS allowT k).getD j 0 =
        latticeV N spot u d disc p K isCall (fun i => decide (i ∈ exS))
          allowT k j := by
  intro k
  induction k with
  | zero =>
    intro _ j hj
    have hj' : j < N + 1 := by omega
    cases allowT with
    | false => simp [bermLoop, bermTerminal, latticeV, getD_map_range _ hj']
    | true =>
      simp only [bermLoop, bermTerminal, latticeV, ite_true]
      rw [getD_map_range _ hj']
      cases isCall with
      | true =>
        simp only [eq_self_iff_true, ite_true, intrinsicSpec]
        rw [stock_closed spot u d N j (by omega)]
        exact if_gt_eq_max _
      | false =>
        simp only [Bool.false_eq_true, ite_false, intrinsicSpec]
        rw [stock_closed spot u d N j (by omega)]
        exact if_gt_eq_max _
  | succ k ih =>
    intro hk j hj
    have hj' : j < N - (k + 1) + 1 := by omega
    have e1 : (bermLoop N spot u d disc p K isCall exS allowT k).getD j 0 =
        latticeV N spot u d disc p K isCall (fun i => decide (i ∈ exS))
          allowT k j := ih (by omega) j (by omega)
    have e2 : (bermLoop N spot u d disc p K isCall exS allowT k).getD (j + 1) 0 =
        latticeV N spot u d disc p K isCall (fun i => decide (i ∈ exS))
          allowT k (j + 1) := ih (by omega) (j + 1) (by omega)
    simp only [bermLoop, bermBackStep, latticeV]
    rw [getD_map_range _ hj']
    simp only [e1, e2]
    by_cases hmem : (N - (k + 1)) ∈ exS
    · have hd : decide (N - (k + 1) ∈ exS) = true := by simpa using hmem
      rw [if_pos hmem, if_pos hd]
      cases isCall with
      | true =>
        simp only [eq_self_iff_true, ite_true, intrinsicSpec]
        rw [stock_closed spot u d (N - (k + 1)) j (by omega), if_lt_eq_max]
      | false =>
        simp only [Bool.false_eq_true, ite_false, intrinsicSpec]
        rw [stock_closed spot u d (N - (k + 1)) j (by omega), if_lt_eq_max]
    · have hd : ¬ decide (N - (k + 1) ∈ exS) = true := by simpa using hmem
      rw [if_neg hmem, if_neg hd]

/-- The Bermudan lattice result is the spec-side lattice value at the root. -/
theorem bermCore_eq (N : ℕ) (spot u d disc p K : α) (isCall : Bool)
    (exS : List ℕ) (allowT : Bool) :
    bermCore N spot u d disc p K isCall exS allowT =
      latticeV N spot u d disc p K isCall (fun i => decide (i ∈ exS))
        allowT N 0 :=
  bermLoop_getD N spot u d disc p K isCall exS allowT N le_rfl 0 (by omega)

/-- Pointwise correspondence between the American backward-induction arrays
and the spec-side lattice recursion with the everywhere-true policy. -/
theorem amerLoop_getD (steps : ℕ) (spot u d disc p K : α) (isCall : Bool) :
    ∀ k, k ≤ steps → ∀ j, j ≤ steps - k →
      (amerLoop steps spot u d disc p K isCall k).getD j 0 =
        latticeV steps spot u d disc p K isCall (fun _ => true) true k j := by
  intro k
  induction k with
  | zero =>
    intro _ j hj
    have hj' : j < steps + 1 := by omega
    simp only [amerLoop, amerTerminal, latticeV, if_pos]
    rw [getD_map_range _ hj']
    cases isCall with
    | true => simp [intrinsicSpec, max_comm]
    | false => simp [intrinsicSpec, max_comm]
  | succ k ih =>
    intro hk j hj
    have hj' : j < steps - (k + 1) + 1 := by omega
    have e1 := ih (by omega) j (by omega)
    have e2 := ih (by omega) (j + 1) (by omega)
    simp only [amerLoop, amerBackStep, latticeV]
    rw [getD_map_range _ hj']
    simp only [e1, e2, if_pos]
    cases isCall with
    | true => simp [intrinsicSpec, max_comm]
    | false => simp [intrinsicSpec, max_comm]

/-- The American lattice result is the spec-side lattice value at the root,
with exercise permitted at every step. -/
theorem binomial_tree_eq (P : Primitives α) (o : OptionData α) (steps : ℕ)
    (spot : α) :
    binomial_tree P o steps spot =
      latticeV steps spot (crrU P o steps) (crrD P o steps) (crrDisc P o steps)
        (crrP P o steps) o.strike (o.option_type = "call") (fun _ => true)
        true steps 0 :=
  amerLoop_getD steps spot (crrU P o steps) (crrD P o steps) (crrDisc P o steps)
    (crrP P o steps) o.strike _ steps le_rfl 0 (by omega)

/-- Enlarging the exercise policy can only raise lattice values, given
`p ∈ [0,1]` and a nonnegative discount factor. -/
theorem latticeV_mono (N : ℕ) (spot u d disc p K : α) (isCall : Bool)
    (E1 E2 : ℕ → Bool) (allowT : Bool)
    (hE : ∀ i, E1 i = true → E2 i = true)
    (hp0 : 0 ≤ p) (hp1 : p ≤ 1) (hdisc : 0 ≤ disc) :
    ∀ k j, latticeV N spot u d disc p K isCall E1 allowT k j ≤
      latticeV N spot u d disc p K isCall E2 allowT k j := by
  intro k
  induction k with
  | zero => intro j; exact le_rfl
  | succ k ih =>
    intro j
    simp only [latticeV]
    have hcont : disc * (p * latticeV N spot u d disc p K isCall E1 allowT k j +
        (1 - p) * latticeV N spot u d disc p K isCall E1 allowT k (j + 1)) ≤
        disc * (p * latticeV N spot u d disc p K isCall E2 allowT k j +
        (1 - p) * latticeV N spot u d disc p K isCall E2 allowT k (j + 1)) := by
      apply mul_le_mul_of_nonneg_left _ hdisc
      exact add_le_add (mul_le_mul_of_nonneg_left (ih j) hp0)
        (mul_le_mul_of_nonneg_left (ih (j + 1)) (by linarith))
    by_cases h1 : E1 (N - (k + 1)) = true
    · rw [if_pos h1, if_pos (hE _ h1)]
      exact max_le_max hcont le_rfl
    · rw [if_neg h1]
      by_cases h2 : E2 (N - (k + 1)) = true
      · rw [if_pos h2]
        exact hcont.trans (le_max_left _ _)
      · rw [if_neg h2]
        exact hcont

/-- With no exercise step and no maturity exercise, every lattice value is
zero. -/
theorem latticeV_zero_policy (N : ℕ) (spot u d disc p K : α) (isCall : Bool)
    (E : ℕ → Bool) (hE : ∀ i, E i = false) :
    ∀ k j, latticeV N spot u d disc p K isCall E false k j = 0 := by
  intro k
  induction k with
  | zero => intro j; simp [latticeV]
  | succ k ih =>
    intro j
    simp only [latticeV]
    rw [if_neg (by rw [hE]; simp)]
    rw [ih j, ih (j + 1)]
    ring

/-- Rounding an integer-valued argument returns it. -/
theorem pyRound_intCast [FloorRing α] (n : ℤ) : pyRound ((n : α)) = n := by
  unfold pyRound
  rw [Int.floor_intCast, if_pos (by norm_num)]

/-- Rounding a natural-valued argument returns it. -/
theorem pyRound_natCast [FloorRing α] (n : ℕ) : pyRound ((n : α)) = n := by
  have h : ((n : ℤ) : α) = (n : α) := by push_cast; rfl
  rw [← h, pyRound_intCast]

/-- Any time whose step ratio lies in `[0, 1/2)` rounds to step `0`. -/
theorem pyRound_of_lt_half [FloorRing α] {x : α} (h0 : 0 ≤ x)
    (h1 : x < 1 / 2) : pyRound x = 0 := by
  unfold pyRound
  have hf : ⌊x⌋ = 0 := by
    rw [Int.floor_eq_zero_iff]
    exact ⟨h0, by linarith⟩
  rw [hf, if_pos (by push_cast; linarith)]

/-- The default schedule `[expiry]` maps to no early step and maturity
exercise allowed. -/
theorem mapExerciseDates_single_expiry [FloorRing α] (T : α) (N : ℕ)
    (hT : T ≠ 0) (hN : N ≠ 0) :
    mapExerciseDates [T] (T / (N : α)) N = ([], true) := by
  have hdt : T / (T / (N : α)) = (N : α) := by
    rw [div_div_eq_mul_div, mul_comm T ((N : α)), mul_div_assoc, div_self hT,
      mul_one]
  unfold mapExerciseDates
  simp only [List.foldl]
  rw [hdt, pyRound_natCast, if_pos rfl]

/-- A schedule whose every time rounds to step `0` is recorded nowhere. -/
theorem mapExerciseDates_dropped [FloorRing α] (dates : List α) (dt : α)
    (N : ℕ) (hN : 1 ≤ N) (h : ∀ t ∈ dates, pyRound (t / dt) = 0) :
    mapExerciseDates dates dt N = ([], false) := by
  unfold mapExerciseDates
  induction dates with
  | nil => rfl
  | cons t ts ih =>
    simp only [List.foldl]
    rw [h t (by simp)]
    rw [if_neg (by omega), if_neg (by omega)]
    exact ih (fun s hs => h s (by simp [hs]))

/-- **C4.** With `p ∈ [0,1]`, the Bermudan lattice arrays agree node-by-node
with the spec's backward recursion (terminal layer: clamped intrinsic payoff
when maturity exercise is permitted, zero otherwise; inner layers:
discounted continuation, replaced by its max with intrinsic exactly on mapped
exercise steps) and `price(spot)` returns the recursion's root value. -/
theorem C4_bermudan_backward_induction [FloorRing α] (P : Primitives α)
    (o : OptionData α) (steps : ℕ) (dates : List α) (spot : α)
    (hp : 0 ≤ crrP P o steps ∧ crrP P o steps ≤ 1) :
    (∀ k, k ≤ steps → ∀ j, j ≤ steps - k →
      (bermLoop steps spot (crrU P o steps) (crrD P o steps)
          (crrDisc P o steps) (crrP P o steps) o.strike
          (o.option_type = "call")
          (mapExerciseDates dates (o.expiry / (steps : α)) steps).1
          (mapExerciseDates dates (o.expiry / (steps : α)) steps).2 k).getD j 0 =
        latticeV steps spot (crrU P o steps) (crrD P o steps)
          (crrDisc P o steps) (crrP P o steps) o.strike
          (o.option_type = "call")
          (fun i => decide
            (i ∈ (mapExerciseDates dates (o.expiry / (steps : α)) steps).1))
          (mapExerciseDates dates (o.expiry / (steps : α)) steps).2 k j) ∧
    bermudan_price P o steps dates spot =
      .ok (latticeV steps spot (crrU P o steps) (crrD P o steps)
        (crrDisc P o steps) (crrP P o steps) o.strike (o.option_type = "call")
        (fun i => decide
          (i ∈ (mapExerciseDates dates (o.expiry / (steps : α)) steps).1))
        (mapExerciseDates dates (o.expiry / (steps : α)) steps).2 steps 0) := by
  constructor
  · intro k hk j hj
    exact bermLoop_getD steps spot _ _ _ _ o.strike _ _ _ k hk j hj
  · simp only [bermudan_price]
    rw [if_neg (not_not.mpr hp)]
    rw [bermCore_eq]

/-- Witness for C4 at `optMidP`, one lattice step, default schedule
`[expiry]`, spot `1`: the returned price evaluates to `4/27`. -/
theorem C4_witness :
    bermudan_price ratPrims optMidP 1 [(1 : ℚ)] 1 = .ok (4 / 27) := by
  rw [(C4_bermudan_backward_induction ratPrims optMidP 1 [(1 : ℚ)] 1
    (by norm_num [crrP, crrU, crrD, ratPrims, optMidP])).2]
  rw [show mapExerciseDates [(1 : ℚ)] (optMidP.expiry / ((1 : ℕ) : ℚ)) 1 = ([], true) by
    have := mapExerciseDates_single_expiry (α := ℚ) optMidP.expiry 1
      (by norm_num [optMidP]) one_ne_zero
    simpa [optMidP] using this]
  simp [latticeV, intrinsicSpec, crrU, crrD, crrDisc, crrP, ratPrims, optMidP]
  norm_num [max_def]

/-- **C5.** For identical contract, spot and step count, with `p ∈ [0,1]` and
nonnegative per-step discount: the lattice price with exercise only at
maturity is at most the lattice price under any schedule whose mapping allows
maturity exercise, which in turn is at most the American lattice price. -/
theorem C5_exercise_ordering [FloorRing α] (P : Primitives α) (o : OptionData α)
    (steps : ℕ) (dates : List α) (spot : α)
    (hp : 0 ≤ crrP P o steps ∧ crrP P o steps ≤ 1)
    (hdisc : 0 ≤ crrDisc P o steps)
    (hT : o.expiry ≠ 0) (hN : steps ≠ 0)
    (hmat : (mapExerciseDates dates (o.expiry / (steps : α)) steps).2 = true)
    (e b : α)
    (he : bermudan_price P o steps [o.expiry] spot = .ok e)
    (hb : bermudan_price P o steps dates spot = .ok b) :
    e ≤ b ∧ b ≤ binomial_tree P o steps spot := by
  simp only [bermudan_price] at he hb
  rw [if_neg (not_not.mpr hp)] at he hb
  rw [mapExerciseDates_single_expiry o.expiry steps hT hN] at he
  rw [hmat] at hb
  rw [Except.ok.injEq] at he hb
  rw [bermCore_eq] at he hb
  rw [← he, ← hb, binomial_tree_eq]
  constructor
  · exact latticeV_mono steps spot _ _ _ _ o.strike _ _ _ true
      (fun i hi => absurd hi (by simp)) hp.1 hp.2 hdisc steps 0
  · exact latticeV_mono steps spot _ _ _ _ o.strike _ _ _ true
      (fun i _ => rfl) hp.1 hp.2 hdisc steps 0

/-- Witness for C5 at `optMidP`, two steps, schedule `[1/2, 1]`, spot `1`:
European `5/81` ≤ Bermudan `1/9` ≤ American. -/
theorem C5_witness :
    (5 / 81 : ℚ) ≤ 1 / 9 ∧ (1 / 9 : ℚ) ≤ binomial_tree ratPrims optMidP 2 1 :=
  C5_exercise_ordering ratPrims optMidP 2 [1 / 2, 1] 1
    (by norm_num [crrP, crrU, crrD, ratPrims, optMidP])
    (by norm_num [crrDisc, ratPrims, optMidP])
    (by norm_num [optMidP]) (by norm_num)
    (by norm_num [mapExerciseDates, pyRound, ratPrims, optMidP,
      Int.floor_eq_iff])
    (5 / 81) (1 / 9)
    (by simp [bermudan_price, bermCore, bermLoop, bermBackStep, bermTerminal,
        stock, mapExerciseDates, pyRound, crrU, crrD, crrDisc, crrP, ratPrims,
        optMidP, List.range_succ, Int.floor_eq_iff]
        norm_num [max_def])
    (by simp [bermudan_price, bermCore, bermLoop, bermBackStep, bermTerminal,
        stock, mapExerciseDates, pyRound, crrU, crrD, crrDisc, crrP, ratPrims,
        optMidP, List.range_succ, Int.floor_eq_iff]
        norm_num [max_def])

/-- **C10.** Exercise times whose step ratio `t/Δt` lies in `[0, 1/2)` round
to step `0` and are silently dropped: nothing is recorded for them, no error
is raised, and if every scheduled time is such, the Bermudan price is `.ok 0`
for every spot. -/
theorem C10_silent_date_dropping [FloorRing α] (P : Primitives α)
    (o : OptionData α) (steps : ℕ) (dates : List α) (spot : α)
    (hp : 0 ≤ crrP P o steps ∧ crrP P o steps ≤ 1) (hN : 1 ≤ steps)
    (hdates : ∀ t ∈ dates, 0 ≤ t / (o.expiry / (steps : α)) ∧
      t / (o.expiry / (steps : α)) < 1 / 2) :
    mapExerciseDates dates (o.expiry / (steps : α)) steps = ([], false) ∧
    bermudan_price P o steps dates spot = .ok 0 := by
  have hmap := mapExerciseDates_dropped dates (o.expiry / (steps : α)) steps hN
    (fun t ht => pyRound_of_lt_half (hdates t ht).1 (hdates t ht).2)
  refine ⟨hmap, ?_⟩
  simp only [bermudan_price]
  rw [if_neg (not_not.mpr hp), hmap]
  rw [bermCore_eq,
    latticeV_zero_policy steps spot _ _ _ _ o.strike _ _ (fun i => by simp)
      steps 0]

/-- Witness for C10 at `optMidP`, two steps, schedule `[1/5]` (step ratio
`2/5 < 1/2`), spot `1`. -/
theorem C10_witness :
    mapExerciseDates [(1 : ℚ) / 5] (optMidP.expiry / ((2 : ℕ) : ℚ)) 2 =
      ([], false) ∧
    bermudan_price ratPrims optMidP 2 [(1 : ℚ) / 5] 1 = .ok 0 :=
  C10_silent_date_dropping ratPrims optMidP 2 [(1 : ℚ) / 5] 1
    (by norm_num [crrP, crrU, crrD, ratPrims, optMidP]) (by norm_num)
    (by
      intro t ht
      simp only [List.mem_singleton] at ht
      subst ht
      norm_num [optMidP])

/-- **C6 counterexample.** With `m = 1` simulation the pricer draws
`⌈1/2⌉ = 1` row; truncation to `m` rows then discards its negation, so the
single original draw `[1]` has no mirrored pair among the rows actually
used. -/
theorem C6_counterexample :
    antitheticZ 1 [[(1 : ℚ)]] = [[(1 : ℚ)]] ∧
    ¬ [(-1 : ℚ)] ∈ antitheticZ 1 [[(1 : ℚ)]] := by
  constructor
  · rfl
  · simp [antitheticZ]
    norm_num

/-- **C6 amended.** Given the `⌈m/2⌉` drawn rows, the assembled matrix has
exactly `m` rows, its first `⌈m/2⌉` rows are the original draws, row
`⌈m/2⌉ + i` is the negation of original row `i` for every `i < ⌊m/2⌋`
(so every original draw except, for odd `m`, the last one has a mirrored
pair), and for even `m` every original draw has its negation among the rows
used. -/
theorem C6_antithetic_rows (m : ℕ) (zs : List (List α))
    (hm : 1 ≤ m) (hlen : zs.length = (m + 1) / 2) :
    (antitheticZ m zs).length = m ∧
    (antitheticZ m zs).take ((m + 1) / 2) = zs ∧
    (∀ i, i < m / 2 →
      (antitheticZ m zs).getD ((m + 1) / 2 + i) [] =
        (zs.getD i []).map (fun z => -z)) ∧
    (m % 2 = 0 → ∀ row ∈ zs, row.map (fun z => -z) ∈ antitheticZ m zs) := by
  have hlen2 : (zs ++ zs.map (fun row => row.map (fun z => -z))).length =
      (m + 1) / 2 + (m + 1) / 2 := by
    simp [hlen]
  refine ⟨?_, ?_, ?_, ?_⟩
  · rw [antitheticZ, List.length_take, hlen2]
    omega
  · rw [antitheticZ, List.take_take, min_eq_left (by omega), ← hlen,
      List.take_left]
  · intro i hi
    rw [antitheticZ]
    rw [List.getD_eq_getElem?_getD, List.getElem?_take, if_pos (by omega)]
    rw [← hlen, List.getElem?_append_right (by omega)]
    have hsub : zs.length + i - zs.length = i := by omega
    rw [hsub, List.getElem?_map]
    have hi' : i < zs.length := by omega
    rw [List.getElem?_eq_getElem hi']
    simp [List.getD_eq_getElem?_getD, List.getElem?_eq_getElem hi']
  · intro hev row hrow
    have : antitheticZ m zs = zs ++ zs.map (fun r => r.map (fun z => -z)) := by
      rw [antitheticZ]
      apply List.take_of_length_le
      rw [hlen2]
      omega
    rw [this]
    exact List.mem_append_right _ (List.mem_map_of_mem _ hrow)

/-- Witness for C6 at `m = 4`, drawn rows `[[1],[2]]`. -/
theorem C6_witness :
    (antitheticZ 4 [[(1 : ℚ)], [(2 : ℚ)]]).length = 4 ∧
    (antitheticZ 4 [[(1 : ℚ)], [(2 : ℚ)]]).take ((4 + 1) / 2) =
      [[(1 : ℚ)], [(2 : ℚ)]] ∧
    (∀ i, i < 4 / 2 →
      (antitheticZ 4 [[(1 : ℚ)], [(2 : ℚ)]]).getD ((4 + 1) / 2 + i) [] =
        (([[(1 : ℚ)], [(2 : ℚ)]]).getD i []).map (fun z => -z)) ∧
    (4 % 2 = 0 → ∀ row ∈ [[(1 : ℚ)], [(2 : ℚ)]],
      row.map (fun z => -z) ∈ antitheticZ 4 [[(1 : ℚ)], [(2 : ℚ)]]) :=
  C6_antithetic_rows 4 [[(1 : ℚ)], [(2 : ℚ)]] (by norm_num) (by simp)

/-- Prefix sums preserve length. -/
theorem cumsumFrom_length (acc : α) (xs : List α) :
    (cumsumFrom acc xs).length = xs.length := by
  induction xs generalizing acc with
  | nil => rfl
  | cons x xs ih => simp [cumsumFrom, ih]

/-- Under the exponential homomorphism law and `exp (log S0) = S0`, the
code's monitored prices `exp(log S0 + c)` are the spec's `S0·exp c`. -/
theorem asianPrices_eq (P : Primitives α) (S0 drift diffusion : α)
    (hexp : ∀ a b, P.exp (a + b) = P.exp a * P.exp b)
    (hlog : P.exp (P.log S0) = S0) (row : List α) :
    asianPathPrices P S0 drift diffusion row =
      asianSpecPrices P S0 drift diffusion row := by
  unfold asianPathPrices asianSpecPrices
  apply List.map_congr_left
  intro c _
  rw [hexp, hlog]

/-- The code's per-path average matches the spec's (given a full-length draw
row, so that the code's `mean` divides by `n`). -/
theorem asianAvg_eq (P : Primitives α) (S0 drift diffusion : α) (n : ℕ)
    (inc : Bool) (row : List α)
    (hexp : ∀ a b, P.exp (a + b) = P.exp a * P.exp b)
    (hlog : P.exp (P.log S0) = S0) (hrow : row.length = n) :
    asianAvg P S0 drift diffusion n inc row =
      asianSpecAvg P S0 drift diffusion n inc row := by
  unfold asianAvg asianSpecAvg
  rw [asianPrices_eq P S0 drift diffusion hexp hlog row]
  cases inc with
  | true => rfl
  | false =>
    simp [listMean, asianSpecPrices, cumsum, cumsumFrom_length, hrow]

/-- **C7.** Given the m×n draw matrix, the Monte Carlo pricer returns the
discounted mean of the per-path payoffs together with the discounted
Bessel-corrected sample standard deviation over `√m`, with per-path averages
over the monitored prices `S·exp(cumsum((r−q−σ²/2)Δt + σ√Δt·z))` (including
the spot as an extra monitoring point when configured). -/
theorem C7_monte_carlo_formula (P : Primitives α) (o : OptionData α)
    (cfg : AsianConfig) (Z : List (List α)) (spot : α)
    (hexp : ∀ a b, P.exp (a + b) = P.exp a * P.exp b)
    (hlog : P.exp (P.log spot) = spot)
    (hZ : Z.length = cfg.num_simulations)
    (hrows : ∀ row ∈ Z, row.length = cfg.num_steps)
    (hm : 1 ≤ cfg.num_simulations) (hn : 1 ≤ cfg.num_steps)
    (hT : 0 < o.expiry) (hvol : 0 ≤ o.volatility)
    (hty : o.option_type = "call" ∨ o.option_type = "put") :
    asian_price_with P o cfg Z spot = .ok (asianSpecPair P o cfg Z spot) := by
  have hval : ¬(o.expiry ≤ 0 ∨ o.volatility < 0 ∨ cfg.num_steps ≤ 0 ∨
      cfg.num_simulations ≤ 0) := by
    push_neg
    exact ⟨hT, hvol, by omega, by omega⟩
  have hdrift : (o.rate - o.dividend_yield -
        1 / 2 * o.volatility * o.volatility) * (o.expiry / (cfg.num_steps : α)) =
      (o.rate - o.dividend_yield - o.volatility ^ 2 / 2) *
        (o.expiry / (cfg.num_steps : α)) := by
    ring
  have hA : Z.map (asianAvg P spot
        ((o.rate - o.dividend_yield - 1 / 2 * o.volatility * o.volatility) *
          (o.expiry / (cfg.num_steps : α)))
        (o.volatility * P.sqrt (o.expiry / (cfg.num_steps : α)))
        cfg.num_steps cfg.include_s0) =
      Z.map (asianSpecAvg P spot
        ((o.rate - o.dividend_yield - o.volatility ^ 2 / 2) *
          (o.expiry / (cfg.num_steps : α)))
        (o.volatility * P.sqrt (o.expiry / (cfg.num_steps : α)))
        cfg.num_steps cfg.include_s0) := by
    apply List.map_congr_left
    intro row hrow
    rw [hdrift]
    exact asianAvg_eq P spot _ _ cfg.num_steps cfg.include_s0 row hexp hlog
      (hrows row hrow)
  simp only [asian_price_with, asianSpecPair]
  rw [if_neg hval]
  rcases hty with h | h
  · rw [h, pyLower_call, if_pos rfl, hA, List.map_map]
    simp [asianSpecPayoff, listMean, sampleStd, List.length_map, hZ,
      Function.comp_def]
  · rw [h, pyLower_put]
    rw [if_neg (by decide), if_pos rfl, hA, List.map_map]
    simp [asianSpecPayoff, listMean, sampleStd, List.length_map, hZ,
      Function.comp_def]

/-- Witness for C7: one path, one step, `optMidP` under `homPrims`. -/
theorem C7_witness :
    asian_price_with homPrims optMidP ⟨1, 1, false, false⟩ [[(0 : ℚ)]] 1 =
      .ok (asianSpecPair homPrims optMidP ⟨1, 1, false, false⟩ [[(0 : ℚ)]] 1) :=
  C7_monte_carlo_formula homPrims optMidP ⟨1, 1, false, false⟩ [[(0 : ℚ)]] 1
    (by intro a b; norm_num [homPrims]) (by norm_num [homPrims]) rfl
    (by intro row hrow; simp only [List.mem_singleton] at hrow; subst hrow; rfl)
    (by norm_num) (by norm_num) (by norm_num [optMidP]) (by norm_num [optMidP])
    (Or.inr rfl)

/-- **C8.** With a fixed (non-`None`) seed and identical configuration, the
Monte Carlo pricer's result does not depend on the ambient RNG state: any two
calls reseed the global generator to the same state, consume the same
pseudo-random stream, and return identical `(estimate, standard_error)`
values. -/
theorem C8_seed_reproducibility {σ : Type} (R : RngModel σ α)
    (P : Primitives α) (o : OptionData α) (cfg : AsianConfig) (k : ℕ)
    (spot : α) (st1 st2 : σ) :
    (asian_price_stateful R P o cfg (some k) spot st1).1 =
      (asian_price_stateful R P o cfg (some k) spot st2).1 := by
  simp only [asian_price_stateful, npSeed]
  by_cases h : o.expiry ≤ 0 ∨ o.volatility < 0 ∨ cfg.num_steps ≤ 0 ∨
      cfg.num_simulations ≤ 0
  · rw [if_pos h, if_pos h]
  · rw [if_neg h, if_neg h]

end FinLLM
